import Mathlib
/-!
# Verification of the Cloud-Clipboard crypto core

Shallow embedding of the client-side cryptographic core:
`src/kdf.ts` (class `Kdf`), `src/symmetric-encryption.ts`
(class `SymmetricEncryption`) and `src/signature.ts` (class `Signature`).

Byte strings are modelled as `List Nat`.  The external primitive providers
(Argon2id password hashing, SHA-256, AES-GCM, Ed25519 public-key derivation,
the JSON codec of the JS runtime) are out of scope per the specification and
are modelled as parameters: a `Prims` record for the hash providers, an
`Aead` record (bundled with its round-trip law) for the cipher, and plain
function parameters for `JSON.stringify`/`JSON.parse` composed with
`TextEncoder`/`TextDecoder`.  Everything the repository itself implements
(salt digesting, the ratchet loop, the ratchet cache, the metadata and file
framing, the runtime checks and error paths) is translated directly from the
TypeScript source.
-/
/-- Byte strings (`Uint8Array` values) are lists of naturals. -/
abbrev Bytes := List Nat
/-- UTF-8 encoding of a single character (what `TextEncoder` does per char). -/
def utf8EncodeChar (c : Char) : List Nat :=
  let n := c.toNat
  if n < 0x80 then [n]
  else if n < 0x800 then
    [0xC0 ||| (n >>> 6), 0x80 ||| (n &&& 0x3F)]
  else if n < 0x10000 then
    [0xE0 ||| (n >>> 12), 0x80 ||| ((n >>> 6) &&& 0x3F), 0x80 ||| (n &&& 0x3F)]
  else
    [0xF0 ||| (n >>> 18), 0x80 ||| ((n >>> 12) &&& 0x3F),
     0x80 ||| ((n >>> 6) &&& 0x3F), 0x80 ||| (n &&& 0x3F)]
/-- `new TextEncoder().encode(s)`: the UTF-8 bytes of a string. -/
def utf8Encode (s : String) : Bytes :=
  (s.data.map utf8EncodeChar).flatten
/-- The primitive hash providers consumed by the core (abstract, per spec
section 6: Argon2id under its two cost profiles, SHA-256, and Ed25519
public-key derivation from a 32-byte seed). -/
structure Prims where
  sha256 : Bytes → Bytes
  argonStrong : String → Bytes → Bytes
  argonFast : Bytes → Bytes → Bytes
  edPub : Bytes → Bytes
/-- The distinct error kinds surfaced by the core (spec section 7), plus the
JS runtime failures (`TypeError` on property access of `null`/`undefined`,
`SyntaxError` from `JSON.parse`, the `base64-js` decoder error). -/
inductive CryptoError where
  | missingSalt
  | invalidRatchetCount
  | invalidMetadataShape
  | missingContentKey
  | authFailure
  | jsonSyntaxError
  | typeError
  | invalidBase64
  deriving DecidableEq, Repr
namespace Kdf
/-- `Kdf.hashSalt`: SHA-256 over the UTF-8 encoding of the salt string. -/
def hashSalt (P : Prims) (salt : String) : Bytes :=
  P.sha256 (utf8Encode salt)
/-- `Kdf.hash(keyphrase, salt?, hashedSalt?)`: Argon2id with the strong cost
profile (m=19456, t=2, p=1, hashLen=32).  The salt actually passed to Argon2
is `hashedSalt ?? hashSalt(salt)`; supplying neither argument throws. -/
def hash (P : Prims) (keyphrase : String) (salt : Option String)
    (hashedSalt : Option Bytes) : Except CryptoError Bytes :=
  match hashedSalt, salt with
  | some hs, _ => .ok (P.argonStrong keyphrase hs)
  | none, some s => .ok (P.argonStrong keyphrase (hashSalt P s))
  | none, none => .error .missingSalt
/-- `Kdf.fastHash(key, salt?, hashedSalt?)`: Argon2id with the cheap cost
profile (m=10, t=1, p=1, hashLen=32), same salt handling as `hash`. -/
def fastHash (P : Prims) (key : Bytes) (salt : Option String)
    (hashedSalt : Option Bytes) : Except CryptoError Bytes :=
  match hashedSalt, salt with
  | some hs, _ => .ok (P.argonFast key hs)
  | none, some s => .ok (P.argonFast key (hashSalt P s))
  | none, none => .error .missingSalt
end Kdf
/-! ## The ratchet cache

`SymmetricEncryption.ratchetCache` is a single static slot holding the
`(keyphrase, salt)` pair it was primed with and a `Map<number, Uint8Array>`
of already-computed ratchet steps.  JS `Map` keys here are JS numbers; the
indices `ratchetKey` is called with need not be integers, so keys are
modelled as rationals. -/
/-- `Map.prototype.get` on an association list with rational keys. -/
def mapGet : List (ℚ × Bytes) → ℚ → Option Bytes
  | [], _ => none
  | p :: rest, q => if p.fst = q then some p.snd else mapGet rest q
/-- `Map.prototype.set` on an association list with rational keys. -/
def mapSet : List (ℚ × Bytes) → ℚ → Bytes → List (ℚ × Bytes)
  | [], q, v => [(q, v)]
  | p :: rest, q, v => if p.fst = q then (q, v) :: rest else p :: mapSet rest q v
/-- The static `ratchetCache` slot: the priming pair and the memoized
hash chain. -/
structure RatchetCache where
  key : String
  salt : String
  hashes : List (ℚ × Bytes)
/-- `SymmetricEncryption.initalizeRatchetCache` (source spelling): replace
the cache with a fresh empty one unless it is already primed with exactly
the same `(key, salt)` pair. -/
def initalizeRatchetCache (key salt : String) : Option RatchetCache → RatchetCache
  | some c => if c.key = key ∧ c.salt = salt then c else ⟨key, salt, []⟩
  | none => ⟨key, salt, []⟩
/-- Result of an operation of the `SymmetricEncryption` class: the returned
value or thrown error, the static cache after the call, and how many strong
(`kdf.hash`) and fast (`kdf.fastHash`) Argon2 passes the call performed. -/
structure OpResult (α : Type) where
  out : Except CryptoError α
  st : Option RatchetCache
  strongCalls : ℕ
  fastCalls : ℕ
/-- The `for (let i = 2; i <= ratchetCount; i++)` loop body of `ratchetKey`,
unrolled over the number of remaining iterations.  For a JS counter starting
at 2 the loop runs exactly for the integers `2 .. ⌊ratchetCount⌋`, i.e.
`(⌊ratchetCount⌋ - 1).toNat` times.  Each step takes the cached entry if
present (`cache.get(i) ?? kdf.fastHash(...)`, where `fastHash` with a
pre-hashed salt is the fast Argon2 pass by `Kdf.fastHash_with_hashedSalt`)
and re-stores it; the third component counts the fast Argon2 passes. -/
def ratchetLoop (P : Prims) (saltHash : Bytes) :
    ℕ → ℕ → Bytes → List (ℚ × Bytes) → Bytes × List (ℚ × Bytes) × ℕ
  | 0, _, k, m => (k, m, 0)
  | r + 1, i, k, m =>
    match mapGet m (i : ℚ) with
    | some v => ratchetLoop P saltHash r (i + 1) v (mapSet m (i : ℚ) v)
    | none =>
      let v := P.argonFast k saltHash
      let res := ratchetLoop P saltHash r (i + 1) v (mapSet m (i : ℚ) v)
      (res.1, res.2.1, res.2.2 + 1)
/-- The body of `SymmetricEncryption.ratchetKey` after the positivity check
and cache initialization: early return on a cached hit for the requested
count, otherwise compute `k₁ = cache.get(1) ?? kdf.hash(key, undefined,
saltHash)` (the strong pass, by `Kdf.hash_with_hashedSalt`), store it, and
run the ratchet loop. -/
def ratchetBody (P : Prims) (key salt : String) (ratchetCount : ℚ)
    (c0 : RatchetCache) : OpResult Bytes :=
  match mapGet c0.hashes ratchetCount with
  | some v => ⟨.ok v, some c0, 0, 0⟩
  | none =>
    let saltHash := Kdf.hashSalt P salt
    match mapGet c0.hashes 1 with
    | some k1 =>
      let r := ratchetLoop P saltHash (Int.toNat (⌊ratchetCount⌋ - 1)) 2 k1
        (mapSet c0.hashes 1 k1)
      ⟨.ok r.1, some ⟨key, salt, r.2.1⟩, 0, r.2.2⟩
    | none =>
      let k1 := P.argonStrong key saltHash
      let r := ratchetLoop P saltHash (Int.toNat (⌊ratchetCount⌋ - 1)) 2 k1
        (mapSet c0.hashes 1 k1)
      ⟨.ok r.1, some ⟨key, salt, r.2.1⟩, 1, r.2.2⟩
/-- `SymmetricEncryption.ratchetKey(key, salt, ratchetCount)`: throw
`InvalidRatchetCount` ("Ratchet count must be larger than 0") for
`ratchetCount <= 0`, otherwise initialize the cache slot and run the body. -/
def ratchetKey (P : Prims) (key salt : String) (ratchetCount : ℚ)
    (st : Option RatchetCache) : OpResult Bytes :=
  if ratchetCount ≤ 0 then ⟨.error .invalidRatchetCount, st, 0, 0⟩
  else ratchetBody P key salt ratchetCount (initalizeRatchetCache key salt st)
/-- The mathematical hash chain of the specification: `k₁ = strongHash(K,
hashedSalt)`, `k_{j+1} = fastHash(k_j, hashedSalt)` with `hashedSalt =
SHA-256 of the UTF-8 encoding of S`.  Index 0 is outside the chain. -/
def chainKey (P : Prims) (keyphrase salt : String) : ℕ → Bytes
  | 0 => []
  | 1 => P.argonStrong keyphrase (Kdf.hashSalt P salt)
  | n + 2 => P.argonFast (chainKey P keyphrase salt (n + 1)) (Kdf.hashSalt P salt)
/-- The contents of a cache that holds exactly the chain prefix `k₁ .. k_M`
for the pair `(K, S)`, viewed through `mapGet`. -/
def chainGet (P : Prims) (K S : String) (M : ℕ) (q : ℚ) : Option Bytes :=
  if 1 ≤ q ∧ q ≤ (M : ℚ) ∧ q.den = 1 then
    some (chainKey P K S q.num.toNat)
  else none
/-! ## Correctness of the ratchet loop and of `ratchetKey` -/
/-! ## The cache coherence invariant -/
/-- A cache slot is coherent when its contents are exactly a chain prefix
`k₁ .. k_{M0}` computed from its *own* `(key, salt)` pair. -/
def CacheInv (P : Prims) (c : RatchetCache) : Prop :=
  ∃ M0 : ℕ, ∀ q, mapGet c.hashes q = chainGet P c.key c.salt M0 q
/-- Invariant of the static cache slot (`undefined` is trivially coherent). -/
def StInv (P : Prims) : Option RatchetCache → Prop
  | none => True
  | some c => CacheInv P c
/-! ## The JS value model

`encryptMetadata` receives an arbitrary JS value at runtime and
`decryptMetadata` produces whatever `JSON.parse` returns, so the metadata
layer is modelled over a small universe of JS values.  JS numbers are
modelled as rationals (`NaN`/`Infinity` excluded). -/
inductive JsValue where
  | vNull
  | vUndefined
  | vBool (b : Bool)
  | vNum (q : ℚ)
  | vStr (s : String)
  | vObj (fields : List (String × JsValue))
/-- JS truthiness: `false`, `0`, `""`, `null`, `undefined` are falsy
(`NaN` is not representable here); every object is truthy. -/
def JsValue.truthy : JsValue → Bool
  | .vNull => false
  | .vUndefined => false
  | .vBool b => b
  | .vNum q => q != 0
  | .vStr s => s != ""
  | .vObj _ => true
/-- `typeof v === "object"` — true for objects and, notoriously, `null`. -/
def JsValue.isObject : JsValue → Bool
  | .vNull => true
  | .vObj _ => true
  | _ => false
/-- First field with the given name (JSON-parsed objects have unique keys). -/
def lookupField : List (String × JsValue) → String → Option JsValue
  | [], _ => none
  | p :: rest, k => if p.fst = k then some p.snd else lookupField rest k
/-- JS property access `v.k`: a `TypeError` on `null`/`undefined`, the field
(or `undefined`) on objects, `undefined` on other primitives. -/
def getProp : JsValue → String → Except CryptoError JsValue
  | .vNull, _ => .error .typeError
  | .vUndefined, _ => .error .typeError
  | .vObj fields, k => .ok ((lookupField fields k).getD .vUndefined)
  | _, _ => .ok .vUndefined
/-! ## base64 (the `base64-js` decoder used for content keys) -/
/-- Value of one base64 alphabet character. -/
def b64Val (c : Char) : Option Nat :=
  if 'A' ≤ c ∧ c ≤ 'Z' then some (c.toNat - 65)
  else if 'a' ≤ c ∧ c ≤ 'z' then some (c.toNat - 97 + 26)
  else if '0' ≤ c ∧ c ≤ '9' then some (c.toNat - 48 + 52)
  else if c = '+' then some 62
  else if c = '/' then some 63
  else none
/-- Decode base64 text four characters at a time (padded convention, as
`base64-js` requires: length divisible by 4, `=` only at the end). -/
def base64DecodeChunks : List Char → Option (List Nat)
  | [] => some []
  | a :: b :: c :: d :: rest =>
    match b64Val a, b64Val b with
    | some va, some vb =>
      if c = '=' ∧ d = '=' ∧ rest = [] then
        some [((va <<< 2) ||| (vb >>> 4)) % 256]
      else if d = '=' ∧ rest = [] then
        match b64Val c with
        | some vc =>
          some [((va <<< 2) ||| (vb >>> 4)) % 256,
                (((vb &&& 0xF) <<< 4) ||| (vc >>> 2)) % 256]
        | none => none
      else
        match b64Val c, b64Val d with
        | some vc, some vd =>
          match base64DecodeChunks rest with
          | some bs =>
            some ([((va <<< 2) ||| (vb >>> 4)) % 256,
                   (((vb &&& 0xF) <<< 4) ||| (vc >>> 2)) % 256,
                   (((vc &&& 0x3) <<< 6) ||| vd) % 256] ++ bs)
          | none => none
        | _, _ => none
    | _, _ => none
  | _ => none
/-- `base64js.toByteArray`: decode a base64 string to bytes, failing on
malformed input. -/
def base64Decode (s : String) : Option Bytes :=
  base64DecodeChunks s.data
/-! ## The AEAD provider and the `SymmetricEncryption` operations -/
/-- The AES-256-GCM provider behind `crypto.subtle` (out of scope per spec
section 6), bundled with its round-trip law: decrypting with the key and IV
used for encryption recovers the plaintext. -/
structure Aead where
  enc : Bytes → Bytes → Bytes → Bytes
  dec : Bytes → Bytes → Bytes → Option Bytes
  dec_enc : ∀ key iv pt, dec key iv (enc key iv pt) = some pt
namespace SymmetricEncryption
/-- `SymmetricEncryption.encrypt(key, value)`, with the 16-byte IV drawn
from the CSPRNG passed explicitly: returns `IV ‖ AES-GCM(key, iv, value)`. -/
def encrypt (A : Aead) (iv key value : Bytes) : Bytes :=
  iv ++ A.enc key iv value
/-- `SymmetricEncryption.decrypt(key, value)`: split off the first 16 bytes
as the IV, AEAD-decrypt the rest; a tag mismatch throws. -/
def decrypt (A : Aead) (key value : Bytes) : Except CryptoError Bytes :=
  match A.dec key (value.take 16) (value.drop 16) with
  | some pt => .ok pt
  | none => .error .authFailure
/-- `SymmetricEncryption.encryptMetadata(keyphrase, salt, fileNumber,
metadata)`.  `stringifyB` stands for `TextEncoder().encode(JSON.stringify
(·))`.  Note the source ratchets *before* the shape check, and the shape
check only fires for truthy non-objects (`metadata && typeof metadata !==
"object"`). -/
def encryptMetadata (P : Prims) (A : Aead) (stringifyB : JsValue → Bytes)
    (iv : Bytes) (keyphrase salt : String) (fileNumber : ℚ)
    (metadata : JsValue) (st : Option RatchetCache) : OpResult Bytes :=
  let r := ratchetKey P keyphrase salt fileNumber st
  match r.out with
  | .error e => ⟨.error e, r.st, r.strongCalls, r.fastCalls⟩
  | .ok key =>
    if metadata.truthy && !metadata.isObject then
      ⟨.error .invalidMetadataShape, r.st, r.strongCalls, r.fastCalls⟩
    else
      ⟨.ok (encrypt A iv key (stringifyB metadata)), r.st,
        r.strongCalls, r.fastCalls⟩
/-- `SymmetricEncryption.decryptMetadata(keyphrase, salt, fileNumber,
encryptedMetadata)`.  `parseB` stands for `JSON.parse(TextDecoder().decode
(·))`, with `none` for a `SyntaxError`.  After parsing: the truthy-non-object
shape check, then `if (!metadata.contentKeyBase64) throw` — a JS property
access followed by a truthiness test. -/
def decryptMetadata (P : Prims) (A : Aead) (parseB : Bytes → Option JsValue)
    (keyphrase salt : String) (fileNumber : ℚ) (encryptedMetadata : Bytes)
    (st : Option RatchetCache) : OpResult JsValue :=
  let r := ratchetKey P keyphrase salt fileNumber st
  match r.out with
  | .error e => ⟨.error e, r.st, r.strongCalls, r.fastCalls⟩
  | .ok key =>
    match decrypt A key encryptedMetadata with
    | .error e => ⟨.error e, r.st, r.strongCalls, r.fastCalls⟩
    | .ok pt =>
      match parseB pt with
      | none => ⟨.error .jsonSyntaxError, r.st, r.strongCalls, r.fastCalls⟩
      | some metadata =>
        if metadata.truthy && !metadata.isObject then
          ⟨.error .invalidMetadataShape, r.st, r.strongCalls, r.fastCalls⟩
        else
          match getProp metadata "contentKeyBase64" with
          | .error e => ⟨.error e, r.st, r.strongCalls, r.fastCalls⟩
          | .ok ck =>
            if !ck.truthy then
              ⟨.error .missingContentKey, r.st, r.strongCalls, r.fastCalls⟩
            else
              ⟨.ok metadata, r.st, r.strongCalls, r.fastCalls⟩
/-- `SymmetricEncryption.encryptFile(metadata, file)`: decode the CEK from
`metadata.contentKeyBase64` and encrypt the file body directly — no
ratcheting. -/
def encryptFile (A : Aead) (iv : Bytes) (metadata : JsValue) (file : Bytes) :
    Except CryptoError Bytes :=
  match getProp metadata "contentKeyBase64" with
  | .error e => .error e
  | .ok (.vStr s) =>
    match base64Decode s with
    | some contentKey => .ok (encrypt A iv contentKey file)
    | none => .error .invalidBase64
  | .ok _ => .error .typeError
/-- `SymmetricEncryption.decryptFile(metadata, encryptedFile)`: decode the
CEK from `metadata.contentKeyBase64` and decrypt the file body directly. -/
def decryptFile (A : Aead) (metadata : JsValue) (encryptedFile : Bytes) :
    Except CryptoError Bytes :=
  match getProp metadata "contentKeyBase64" with
  | .error e => .error e
  | .ok (.vStr s) =>
    match base64Decode s with
    | some contentKey => decrypt A contentKey encryptedFile
    | none => .error .invalidBase64
  | .ok _ => .error .typeError
end SymmetricEncryption
namespace Signature
/-- `Signature.createKeyPairFromKeyPhrase(keyphrase, salt)`: the private key
is `kdf.hash(keyphrase, salt)` (strong profile, raw salt string), the public
key is the Ed25519 public key derived from it. -/
def createKeyPairFromKeyPhrase (P : Prims) (keyphrase salt : String) :
    Except CryptoError (Bytes × Bytes) :=
  match Kdf.hash P keyphrase (some salt) none with
  | .error e => .error e
  | .ok privateKey => .ok (privateKey, P.edPub privateKey)
end Signature
/-- A concrete instantiation of the hash providers, for evaluating the
development on closed inputs (injective tagging functions standing in for
the real Argon2id / SHA-256 / Ed25519 providers). -/
def trivPrims : Prims where
  sha256 := fun b => 0 :: b
  argonStrong := fun k s => 1 :: (utf8Encode k ++ s)
  argonFast := fun k s => 2 :: (k ++ s)
  edPub := fun b => 3 :: b

/-- A concrete lawful AEAD provider for evaluating the development on
closed inputs. -/
def idAead : Aead where
  enc := fun _ _ pt => pt
  dec := fun _ _ c => some c
  dec_enc := fun _ _ _ => rfl

/-- A concrete non-integral positive rational, `5/2`, built without
division so that it evaluates by `decide`. -/
def ratNonInt : ℚ := ⟨5, 2, by decide, by decide⟩

/-- A 44-character base64 string decoding to a 32-byte (all-zero) CEK. -/
def cek44 : String := "AAAAAAAAAAAAAAAAAAAAAAAAAAAAAAAAAAAAAAAAAAA="

/-- Sample metadata fields: a single valid `contentKeyBase64` entry. -/
def sampleFields : List (String × JsValue) := [("contentKeyBase64", JsValue.vStr cek44)]

/-! ## Proof development -/

/-- When a pre-hashed salt is supplied (as `ratchetKey` always does),
`Kdf.hash` cannot throw and is exactly the strong Argon2 pass. -/
theorem Kdf.hash_with_hashedSalt (P : Prims) (keyphrase : String) (hs : Bytes) :
    hash P keyphrase none (some hs) = .ok (P.argonStrong keyphrase hs) := rfl
/-- When a pre-hashed salt is supplied (as `ratchetKey` always does),
`Kdf.fastHash` cannot throw and is exactly the fast Argon2 pass. -/
theorem Kdf.fastHash_with_hashedSalt (P : Prims) (key : Bytes) (hs : Bytes) :
    fastHash P key none (some hs) = .ok (P.argonFast key hs) := rfl
theorem mapGet_nil (q : ℚ) : mapGet [] q = none := rfl
theorem mapGet_mapSet (m : List (ℚ × Bytes)) (q q' : ℚ) (v : Bytes) :
    mapGet (mapSet m q v) q' = if q = q' then some v else mapGet m q' := by
  induction m with
  | nil =>
    simp [mapSet, mapGet]
  | cons p rest ih =>
    by_cases hpq : p.fst = q
    · rw [mapSet, if_pos hpq]
      by_cases hqq : q = q'
      · simp [mapGet, hqq]
      · have hpq' : ¬ p.fst = q' := fun hh => hqq (hpq.symm.trans hh)
        simp [mapGet, hqq, hpq']
    · rw [mapSet, if_neg hpq]
      by_cases hpq' : p.fst = q'
      · have hqq : ¬ q = q' := fun hh => hpq (hh ▸ hpq')
        simp [mapGet, hpq', hqq]
      · simp [mapGet, hpq', ih]
theorem initalizeRatchetCache_key (key salt : String) (st : Option RatchetCache) :
    (initalizeRatchetCache key salt st).key = key ∧
      (initalizeRatchetCache key salt st).salt = salt := by
  cases st with
  | none => exact ⟨rfl, rfl⟩
  | some c =>
    by_cases h : c.key = key ∧ c.salt = salt
    · simp [initalizeRatchetCache, h]
    · simp [initalizeRatchetCache, h]
theorem chainKey_succ (P : Prims) (K S : String) (n : ℕ) (hn : 1 ≤ n) :
    chainKey P K S (n + 1) = P.argonFast (chainKey P K S n) (Kdf.hashSalt P S) := by
  cases n with
  | zero => exact absurd hn (by omega)
  | succ m => rfl
theorem chainGet_zero (P : Prims) (K S : String) (q : ℚ) :
    chainGet P K S 0 q = none := by
  unfold chainGet
  rw [if_neg]
  rintro ⟨h1, h2, -⟩
  have := h1.trans h2
  norm_num at this
theorem chainGet_natCast (P : Prims) (K S : String) (M n : ℕ) :
    chainGet P K S M (n : ℚ) =
      if 1 ≤ n ∧ n ≤ M then some (chainKey P K S n) else none := by
  unfold chainGet
  by_cases h : 1 ≤ n ∧ n ≤ M
  · rw [if_pos, if_pos h]
    · norm_num
    · refine ⟨by exact_mod_cast h.1, by exact_mod_cast h.2, by norm_num⟩
  · rw [if_neg, if_neg h]
    rintro ⟨h1, h2, -⟩
    exact h ⟨by exact_mod_cast h1, by exact_mod_cast h2⟩
/-- An integral rational in the window `(i - 1, i]` is `i` itself; hence two
chain-prefix views that differ only above such a window agree away from `i`. -/
theorem chainGet_ext (P : Prims) (K S : String) (M M' : ℕ) (q : ℚ)
    (h : ∀ n : ℕ, 1 ≤ n → q = (n : ℚ) → (n ≤ M ↔ n ≤ M')) :
    chainGet P K S M q = chainGet P K S M' q := by
  unfold chainGet
  by_cases hq : 1 ≤ q ∧ q.den = 1
  · obtain ⟨h1, hden⟩ := hq
    have hnum : (q.num : ℚ) = q := by
      rw [← Rat.den_eq_one_iff]
      exact hden
    have hnn : 1 ≤ q.num := by
      have : (1 : ℚ) ≤ (q.num : ℚ) := by
        rw [hnum]
        exact h1
      exact_mod_cast this
    have htn : (q.num.toNat : ℤ) = q.num := Int.toNat_of_nonneg (by omega)
    have hqn : q = (q.num.toNat : ℚ) := by
      rw [← hnum]
      exact_mod_cast htn.symm
    have hiff := h q.num.toNat (by omega) hqn
    by_cases hM : q ≤ (M : ℚ)
    · have : q.num.toNat ≤ M := by
        rw [hqn] at hM
        exact_mod_cast hM
      have hM' : q ≤ (M' : ℚ) := by
        rw [hqn]
        exact_mod_cast hiff.mp this
      rw [if_pos ⟨h1, hM, hden⟩, if_pos ⟨h1, hM', hden⟩]
    · have hnotM' : ¬ q ≤ (M' : ℚ) := by
        intro hM'
        apply hM
        have : q.num.toNat ≤ M' := by
          rw [hqn] at hM'
          exact_mod_cast hM'
        rw [hqn]
        exact_mod_cast hiff.mpr this
      rw [if_neg, if_neg]
      · rintro ⟨-, h2, -⟩
        exact hnotM' h2
      · rintro ⟨-, h2, -⟩
        exact hM h2
  · rw [if_neg, if_neg]
    · rintro ⟨h1, -, hden⟩
      exact hq ⟨h1, hden⟩
    · rintro ⟨h1, -, hden⟩
      exact hq ⟨h1, hden⟩
/-- Invariant of the `for` loop of `ratchetKey`: starting at counter `i` with
the running key equal to `k_{i-1}` and the cache holding exactly the chain
prefix `k₁ .. k_{max M0 (i-1)}`, after `r` iterations the loop returns
`k_{i-1+r}`, leaves the cache holding exactly `k₁ .. k_{max M0 (i-1+r)}`,
and performs one fast Argon2 pass per index missing from the cache. -/
theorem ratchetLoop_spec (P : Prims) (K S : String) (M0 : ℕ) :
    ∀ (r i : ℕ) (m : List (ℚ × Bytes)) (k : Bytes), 2 ≤ i →
      k = chainKey P K S (i - 1) →
      (∀ q, mapGet m q = chainGet P K S (max M0 (i - 1)) q) →
      (ratchetLoop P (Kdf.hashSalt P S) r i k m).1 = chainKey P K S (i - 1 + r) ∧
      (∀ q, mapGet (ratchetLoop P (Kdf.hashSalt P S) r i k m).2.1 q =
        chainGet P K S (max M0 (i - 1 + r)) q) ∧
      (ratchetLoop P (Kdf.hashSalt P S) r i k m).2.2 =
        (i - 1 + r) - max M0 (i - 1) := by
  intro r
  induction r with
  | zero =>
    intro i m k hi hk hmap
    refine ⟨by simpa using hk, by simpa using hmap, by simp only [ratchetLoop]; omega⟩
  | succ r ih =>
    intro i m k hi hk hmap
    have hmi := hmap ((i : ℕ) : ℚ)
    rw [chainGet_natCast] at hmi
    by_cases hM : i ≤ M0
    · rw [if_pos ⟨by omega, by omega⟩] at hmi
      have hmap' : ∀ q, mapGet (mapSet m (i : ℚ) (chainKey P K S i)) q =
          chainGet P K S (max M0 (i + 1 - 1)) q := by
        intro q
        rw [mapGet_mapSet]
        by_cases hq : ((i : ℕ) : ℚ) = q
        · rw [if_pos hq, ← hq, chainGet_natCast, if_pos ⟨by omega, by omega⟩]
        · rw [if_neg hq, hmap q]
          refine chainGet_ext P K S _ _ q ?_
          intro n hn hqn
          constructor <;> intro <;> omega
      have ih' := ih (i + 1) (mapSet m (i : ℚ) (chainKey P K S i)) (chainKey P K S i)
        (by omega) rfl hmap'
      refine ⟨?_, ?_, ?_⟩
      · rw [show i - 1 + (r + 1) = i + 1 - 1 + r from by omega]
        rw [← ih'.1]
        simp only [ratchetLoop, hmi]
      · intro q
        have := ih'.2.1 q
        rw [show max M0 (i + 1 - 1 + r) = max M0 (i - 1 + (r + 1)) from by omega] at this
        rw [← this]
        simp only [ratchetLoop, hmi]
      · have := ih'.2.2
        simp only [ratchetLoop, hmi]
        rw [this]
        omega
    · rw [if_neg (by omega)] at hmi
      have hv : P.argonFast k (Kdf.hashSalt P S) = chainKey P K S i := by
        rw [hk, ← chainKey_succ P K S (i - 1) (by omega),
          show i - 1 + 1 = i from by omega]
      have hmap' : ∀ q, mapGet (mapSet m (i : ℚ) (chainKey P K S i)) q =
          chainGet P K S (max M0 (i + 1 - 1)) q := by
        intro q
        rw [mapGet_mapSet]
        by_cases hq : ((i : ℕ) : ℚ) = q
        · rw [if_pos hq, ← hq, chainGet_natCast, if_pos ⟨by omega, by omega⟩]
        · rw [if_neg hq, hmap q]
          refine chainGet_ext P K S _ _ q ?_
          intro n hn hqn
          have hni : ¬ n = i := by
            intro h
            exact hq (by rw [hqn, h])
          constructor <;> intro <;> omega
      have ih' := ih (i + 1) (mapSet m (i : ℚ) (chainKey P K S i)) (chainKey P K S i)
        (by omega) rfl hmap'
      refine ⟨?_, ?_, ?_⟩
      · rw [show i - 1 + (r + 1) = i + 1 - 1 + r from by omega]
        rw [← ih'.1]
        simp only [ratchetLoop, hmi, hv]
      · intro q
        have := ih'.2.1 q
        rw [show max M0 (i + 1 - 1 + r) = max M0 (i - 1 + (r + 1)) from by omega] at this
        rw [← this]
        simp only [ratchetLoop, hmi, hv]
      · have := ih'.2.2
        simp only [ratchetLoop, hmi, hv, this]
        omega
theorem chainGet_one (P : Prims) (K S : String) (M : ℕ) :
    chainGet P K S M 1 =
      if 1 ≤ M then some (chainKey P K S 1) else none := by
  have h := chainGet_natCast P K S M 1
  simpa using h
theorem mapSet_one_spec (P : Prims) (K S : String) (M0 : ℕ)
    (m0 : List (ℚ × Bytes)) (hm : ∀ q, mapGet m0 q = chainGet P K S M0 q) :
    ∀ q, mapGet (mapSet m0 1 (chainKey P K S 1)) q =
      chainGet P K S (max M0 1) q := by
  intro q
  rw [mapGet_mapSet]
  by_cases h : (1 : ℚ) = q
  · rw [if_pos h, ← h, chainGet_one, if_pos (by omega)]
  · rw [if_neg h, hm q]
    refine chainGet_ext P K S _ _ q ?_
    intro n hn hqn
    have hn1 : ¬ n = 1 := fun hh => h (by rw [hqn, hh]; norm_num)
    omega
/-- Full specification of `ratchetKey`'s body for a cache primed with
`(K, S)` that holds exactly the chain prefix `k₁ .. k_{M0}` (with `M0 = 0`
for a fresh cache): the returned key is `k_N` for `N = max 1 ⌊count⌋`, the
cache afterwards holds exactly `k₁ .. k_{max M0 N}`, the strong Argon2 pass
runs once iff `k₁` was not cached, and the fast pass runs once per missing
chain index. -/
theorem ratchetBody_spec (P : Prims) (K S : String) (M0 : ℕ)
    (m0 : List (ℚ × Bytes)) (hm : ∀ q, mapGet m0 q = chainGet P K S M0 q)
    (count : ℚ) (hc : 0 < count) :
    (ratchetBody P K S count ⟨K, S, m0⟩).out =
        .ok (chainKey P K S (max 1 (Int.toNat ⌊count⌋))) ∧
      (∃ m', (ratchetBody P K S count ⟨K, S, m0⟩).st = some ⟨K, S, m'⟩ ∧
        ∀ q, mapGet m' q =
          chainGet P K S (max M0 (max 1 (Int.toNat ⌊count⌋))) q) ∧
      (ratchetBody P K S count ⟨K, S, m0⟩).strongCalls =
        (if 1 ≤ M0 then 0 else 1) ∧
      (ratchetBody P K S count ⟨K, S, m0⟩).fastCalls =
        max 1 (Int.toNat ⌊count⌋) - max M0 1 := by
  have hfl : (0 : ℤ) ≤ ⌊count⌋ := Int.floor_nonneg.mpr hc.le
  have hcnt := hm count
  cases hhit : mapGet m0 count with
  | some v =>
    rw [hhit] at hcnt
    rw [chainGet] at hcnt
    by_cases hcond : 1 ≤ count ∧ count ≤ (M0 : ℚ) ∧ count.den = 1
    · rw [if_pos hcond] at hcnt
      obtain ⟨h1, h2, hden⟩ := hcond
      have hv : v = chainKey P K S count.num.toNat := Option.some.inj hcnt
      have hnum : (count.num : ℚ) = count := by
        rw [← Rat.den_eq_one_iff]
        exact hden
      have hnn : 1 ≤ count.num := by
        have : (1 : ℚ) ≤ (count.num : ℚ) := by
          rw [hnum]
          exact h1
        exact_mod_cast this
      have hfloor : ⌊count⌋ = count.num := by
        rw [← hnum]
        exact Int.floor_intCast _
      have hNeq : max 1 (Int.toNat ⌊count⌋) = count.num.toNat := by
        rw [hfloor]
        omega
      have hle : count.num.toNat ≤ M0 := by
        have : (count.num : ℚ) ≤ (M0 : ℚ) := by
          rw [hnum]
          exact h2
        have h' : count.num ≤ (M0 : ℤ) := by exact_mod_cast this
        omega
      simp only [ratchetBody, hhit]
      refine ⟨?_, ⟨m0, rfl, ?_⟩, ?_, ?_⟩
      · rw [hv, hNeq]
      · intro q
        rw [hm q]
        congr 1
        rw [hNeq]
        omega
      · rw [if_pos (by omega)]
      · rw [hNeq]
        omega
    · rw [if_neg hcond] at hcnt
      cases hcnt
  | none =>
    have h1get := hm 1
    rw [chainGet_one] at h1get
    by_cases hM1 : 1 ≤ M0
    · rw [if_pos hM1] at h1get
      simp only [ratchetBody, hhit, h1get]
      have hloop := ratchetLoop_spec P K S M0 (Int.toNat (⌊count⌋ - 1)) 2
        (mapSet m0 1 (chainKey P K S 1)) (chainKey P K S 1) (by omega) rfl
        (mapSet_one_spec P K S M0 m0 hm)
      obtain ⟨hk, hmp, hcnt2⟩ := hloop
      have hN : 2 - 1 + Int.toNat (⌊count⌋ - 1) = max 1 (Int.toNat ⌊count⌋) := by
        omega
      refine ⟨?_, ⟨_, rfl, ?_⟩, ?_, ?_⟩
      · rw [hk, hN]
      · intro q
        rw [hmp q, hN]
      · rw [if_pos hM1]
      · rw [hcnt2, hN]
    · rw [if_neg hM1] at h1get
      simp only [ratchetBody, hhit, h1get]
      rw [show P.argonStrong K (Kdf.hashSalt P S) = chainKey P K S 1 from rfl]
      have hloop := ratchetLoop_spec P K S M0 (Int.toNat (⌊count⌋ - 1)) 2
        (mapSet m0 1 (chainKey P K S 1)) (chainKey P K S 1) (by omega) rfl
        (mapSet_one_spec P K S M0 m0 hm)
      obtain ⟨hk, hmp, hcnt2⟩ := hloop
      have hN : 2 - 1 + Int.toNat (⌊count⌋ - 1) = max 1 (Int.toNat ⌊count⌋) := by
        omega
      refine ⟨?_, ⟨_, rfl, ?_⟩, ?_, ?_⟩
      · rw [hk, hN]
      · intro q
        rw [hmp q, hN]
      · rw [if_neg hM1]
      · rw [hcnt2, hN]
/-- Full specification of `ratchetKey` for any starting cache whose
post-initialization contents are exactly a chain prefix `k₁ .. k_{M0}` for
the requested pair. -/
theorem ratchetKey_spec (P : Prims) (K S : String) (M0 : ℕ)
    (st0 : Option RatchetCache)
    (hm : ∀ q, mapGet (initalizeRatchetCache K S st0).hashes q =
      chainGet P K S M0 q)
    (count : ℚ) (hc : 0 < count) :
    (ratchetKey P K S count st0).out =
        .ok (chainKey P K S (max 1 (Int.toNat ⌊count⌋))) ∧
      (∃ m', (ratchetKey P K S count st0).st = some ⟨K, S, m'⟩ ∧
        ∀ q, mapGet m' q =
          chainGet P K S (max M0 (max 1 (Int.toNat ⌊count⌋))) q) ∧
      (ratchetKey P K S count st0).strongCalls = (if 1 ≤ M0 then 0 else 1) ∧
      (ratchetKey P K S count st0).fastCalls =
        max 1 (Int.toNat ⌊count⌋) - max M0 1 := by
  obtain ⟨h1, h2⟩ := initalizeRatchetCache_key K S st0
  have hceq : initalizeRatchetCache K S st0 =
      ⟨K, S, (initalizeRatchetCache K S st0).hashes⟩ := by
    cases hic : initalizeRatchetCache K S st0 with
    | mk a b c =>
      rw [hic] at h1 h2
      simp only at h1 h2
      rw [h1, h2]
  rw [ratchetKey, if_neg (not_le.mpr hc), hceq]
  exact ratchetBody_spec P K S M0 (initalizeRatchetCache K S st0).hashes hm count hc
theorem StInv_none (P : Prims) : StInv P none := trivial
/-- After `initalizeRatchetCache`, a coherent slot holds a chain prefix for
the requested pair: the previous contents survive only if the pair matches,
otherwise the slot is empty (prefix of length 0). -/
theorem StInv_init (P : Prims) (K S : String) (st0 : Option RatchetCache)
    (h : StInv P st0) :
    ∃ M0 : ℕ, ∀ q, mapGet (initalizeRatchetCache K S st0).hashes q =
      chainGet P K S M0 q := by
  cases st0 with
  | none =>
    exact ⟨0, fun q => by simp [initalizeRatchetCache, mapGet, chainGet_zero]⟩
  | some c =>
    by_cases hpair : c.key = K ∧ c.salt = S
    · obtain ⟨M0, hM0⟩ := h
      refine ⟨M0, fun q => ?_⟩
      simp only [initalizeRatchetCache, if_pos hpair]
      rw [hM0 q, hpair.1, hpair.2]
    · exact ⟨0, fun q => by
        simp [initalizeRatchetCache, hpair, mapGet, chainGet_zero]⟩
/-- `ratchetKey` returns the chain key of the *requested* pair whenever the
cache slot is coherent; the requested index is clamped to
`max 1 ⌊count⌋` by the JS `for` loop. -/
theorem ratchetKey_value (P : Prims) (K S : String) (count : ℚ)
    (st0 : Option RatchetCache) (h : StInv P st0) (hc : 0 < count) :
    (ratchetKey P K S count st0).out =
      .ok (chainKey P K S (max 1 (Int.toNat ⌊count⌋))) := by
  obtain ⟨M0, hm⟩ := StInv_init P K S st0 h
  exact (ratchetKey_spec P K S M0 st0 hm count hc).1
/-- `ratchetKey` preserves coherence of the cache slot, and on success the
slot is primed with the requested pair. -/
theorem ratchetKey_StInv (P : Prims) (K S : String) (count : ℚ)
    (st0 : Option RatchetCache) (h : StInv P st0) :
    StInv P (ratchetKey P K S count st0).st := by
  by_cases hc : count ≤ 0
  · simpa [ratchetKey, hc] using h
  · obtain ⟨M0, hm⟩ := StInv_init P K S st0 h
    obtain ⟨-, ⟨m', hst, hmap⟩, -, -⟩ :=
      ratchetKey_spec P K S M0 st0 hm count (not_le.mp hc)
    rw [hst]
    exact ⟨max M0 (max 1 (Int.toNat ⌊count⌋)), hmap⟩

/-! ## Shared helper lemmas about the operations -/

/-- Decrypting an `encrypt` output with the same key recovers the
plaintext (the 16-byte IV splits off exactly). -/
theorem decrypt_encrypt (A : Aead) (iv key pt : Bytes) (hiv : iv.length = 16) :
    SymmetricEncryption.decrypt A key (SymmetricEncryption.encrypt A iv key pt) =
      .ok pt := by
  unfold SymmetricEncryption.decrypt SymmetricEncryption.encrypt
  rw [← hiv, List.take_left, List.drop_left, A.dec_enc]

/-- The only error `SymmetricEncryption.decrypt` can produce is an
authentication failure. -/
theorem decrypt_error (A : Aead) (k b : Bytes) (e : CryptoError)
    (h : SymmetricEncryption.decrypt A k b = .error e) : e = .authFailure := by
  unfold SymmetricEncryption.decrypt at h
  cases hdec : A.dec k (b.take 16) (b.drop 16) <;> rw [hdec] at h
  · exact (Except.error.inj h).symm
  · exact nomatch h

/-- The only error a JS property access can produce is a `TypeError`. -/
theorem getProp_error (v : JsValue) (k : String) (e : CryptoError)
    (h : getProp v k = .error e) : e = .typeError := by
  cases v with
  | vNull => exact (Except.error.inj h).symm
  | vUndefined => exact (Except.error.inj h).symm
  | vBool b => exact nomatch h
  | vNum q => exact nomatch h
  | vStr s => exact nomatch h
  | vObj fields => exact nomatch h

/-- Once the ratchet has succeeded, `encryptMetadata` can no longer fail
with `InvalidRatchetCount`. -/
theorem encryptMetadata_after_ratchet (P : Prims) (A : Aead)
    (stringifyB : JsValue → Bytes) (iv : Bytes) (K S : String) (count : ℚ)
    (m : JsValue) (st : Option RatchetCache) (key : Bytes)
    (hr : (ratchetKey P K S count st).out = .ok key) :
    (SymmetricEncryption.encryptMetadata P A stringifyB iv K S count m st).out ≠
      .error .invalidRatchetCount := by
  simp only [SymmetricEncryption.encryptMetadata, hr]
  by_cases hsh : (m.truthy && !m.isObject) = true <;> simp [hsh]

/-- Once the ratchet has succeeded, `decryptMetadata` can no longer fail
with `InvalidRatchetCount`. -/
theorem decryptMetadata_after_ratchet (P : Prims) (A : Aead)
    (parseB : Bytes → Option JsValue) (K S : String) (count : ℚ)
    (blob : Bytes) (st : Option RatchetCache) (key : Bytes)
    (hr : (ratchetKey P K S count st).out = .ok key) :
    (SymmetricEncryption.decryptMetadata P A parseB K S count blob st).out ≠
      .error .invalidRatchetCount := by
  simp only [SymmetricEncryption.decryptMetadata, hr]
  cases hde : SymmetricEncryption.decrypt A key blob with
  | error e =>
    have he := decrypt_error A key blob e hde
    subst he
    simp [hde]
  | ok pt =>
    cases hpb : parseB pt with
    | none => simp [hde, hpb]
    | some md =>
      by_cases hsh : md.truthy = true ∧ md.isObject = false
      · simp [hde, hpb, hsh]
      · cases hgp : getProp md "contentKeyBase64" with
        | error e =>
          have he := getProp_error md _ e hgp
          subst he
          simp [hde, hpb, hsh, hgp]
        | ok ck =>
          by_cases hct : ck.truthy = false <;>
            simp [hde, hpb, hsh, hgp, hct]

/-- Truthiness and typeof facts for the constructors the proofs meet. -/
@[simp] theorem JsValue.truthy_vObj (fields : List (String × JsValue)) :
    (JsValue.vObj fields).truthy = true := rfl

@[simp] theorem JsValue.isObject_vObj (fields : List (String × JsValue)) :
    (JsValue.vObj fields).isObject = true := rfl

@[simp] theorem JsValue.truthy_vStr (s : String) :
    (JsValue.vStr s).truthy = (s != "") := rfl

@[simp] theorem JsValue.truthy_vUndefined :
    JsValue.vUndefined.truthy = false := rfl

/-! ## The claims -/

/-- C1: for every keyphrase `K`, salt `S` and integer `N ≥ 1`, the ratcheted
key (computed on a fresh cache) is `k_N` of the hash chain rooted at the
strong hash: `k₁ = strongHash(K, hashedSalt)` with
`hashedSalt = SHA-256(UTF-8(S))`, and `k_{j+1} = fastHash(k_j, hashedSalt)`. -/
theorem claim1_ratchet_chain (P : Prims) (K S : String) (N : ℕ) (hN : 1 ≤ N) :
    (ratchetKey P K S (N : ℚ) none).out = .ok (chainKey P K S N) ∧
      chainKey P K S 1 = P.argonStrong K (P.sha256 (utf8Encode S)) ∧
      ∀ j : ℕ, 1 ≤ j → chainKey P K S (j + 1) =
        P.argonFast (chainKey P K S j) (P.sha256 (utf8Encode S)) := by
  refine ⟨?_, rfl, fun j hj => chainKey_succ P K S j hj⟩
  have h0 : (0 : ℚ) < (N : ℚ) := by
    have : 0 < N := hN
    exact_mod_cast this
  rw [ratchetKey_value P K S (N : ℚ) none (StInv_none P) h0]
  have hNN : max 1 (Int.toNat ⌊((N : ℕ) : ℚ)⌋) = N := by
    rw [Int.floor_natCast]
    omega
  rw [hNN]

theorem claim1_witness :
    1 ≤ 3 ∧
      (ratchetKey trivPrims "phrase" "space" ((3 : ℕ) : ℚ) none).out =
        .ok (chainKey trivPrims "phrase" "space" 3) :=
  ⟨by decide, (claim1_ratchet_chain trivPrims "phrase" "space" 3 (by decide)).1⟩

/-- C2: for `1 ≤ M < N`, the direct computation and the computation through
the cached prefix agree, the second computation performs zero strong Argon2
passes, and it performs exactly `N - M` fast passes (the missing suffix
`k_{M+1} .. k_N`). -/
theorem claim2_cache_reuse (P : Prims) (K S : String) (M N : ℕ)
    (hM : 1 ≤ M) (hMN : M < N) :
    (ratchetKey P K S (N : ℚ) (ratchetKey P K S (M : ℚ) none).st).out =
        (ratchetKey P K S (N : ℚ) none).out ∧
      (ratchetKey P K S (N : ℚ) none).out = .ok (chainKey P K S N) ∧
      (ratchetKey P K S (N : ℚ) (ratchetKey P K S (M : ℚ) none).st).strongCalls
        = 0 ∧
      (ratchetKey P K S (N : ℚ) (ratchetKey P K S (M : ℚ) none).st).fastCalls
        = N - M := by
  have hM0 : (0 : ℚ) < (M : ℚ) := by
    have : 0 < M := hM
    exact_mod_cast this
  have hN0 : (0 : ℚ) < (N : ℚ) := by
    have : 0 < N := by omega
    exact_mod_cast this
  have hmEmpty : ∀ q,
      mapGet (initalizeRatchetCache K S (none : Option RatchetCache)).hashes q =
        chainGet P K S 0 q := by
    intro q
    simp [initalizeRatchetCache, mapGet, chainGet_zero]
  have hMM : max 1 (Int.toNat ⌊((M : ℕ) : ℚ)⌋) = M := by
    rw [Int.floor_natCast]
    omega
  have hNN : max 1 (Int.toNat ⌊((N : ℕ) : ℚ)⌋) = N := by
    rw [Int.floor_natCast]
    omega
  obtain ⟨hout1, ⟨m1, hst1, hmap1⟩, -, -⟩ :=
    ratchetKey_spec P K S 0 none hmEmpty (M : ℚ) hM0
  have hinit2 : initalizeRatchetCache K S (some (⟨K, S, m1⟩ : RatchetCache)) =
      ⟨K, S, m1⟩ := by
    simp [initalizeRatchetCache]
  have hm2 : ∀ q,
      mapGet (initalizeRatchetCache K S
        (ratchetKey P K S (M : ℚ) none).st).hashes q = chainGet P K S M q := by
    intro q
    rw [hst1, hinit2]
    have h := hmap1 q
    rw [show max 0 (max 1 (Int.toNat ⌊((M : ℕ) : ℚ)⌋)) = M from by
      rw [Int.floor_natCast]; omega] at h
    exact h
  obtain ⟨hout2, -, hstrong2, hfast2⟩ :=
    ratchetKey_spec P K S M (ratchetKey P K S (M : ℚ) none).st hm2 (N : ℚ) hN0
  obtain ⟨hout3, -, -, -⟩ := ratchetKey_spec P K S 0 none hmEmpty (N : ℚ) hN0
  refine ⟨?_, ?_, ?_, ?_⟩
  · rw [hout2, hout3]
  · rw [hout3, hNN]
  · rw [hstrong2, if_pos hM]
  · rw [hfast2, hNN]
    omega

theorem claim2_witness :
    (1 ≤ 1 ∧ 1 < 3) ∧
      (ratchetKey trivPrims "phrase" "space" ((3 : ℕ) : ℚ)
          (ratchetKey trivPrims "phrase" "space" ((1 : ℕ) : ℚ) none).st).out =
        (ratchetKey trivPrims "phrase" "space" ((3 : ℕ) : ℚ) none).out ∧
      (ratchetKey trivPrims "phrase" "space" ((3 : ℕ) : ℚ)
          (ratchetKey trivPrims "phrase" "space" ((1 : ℕ) : ℚ) none).st).strongCalls
        = 0 ∧
      (ratchetKey trivPrims "phrase" "space" ((3 : ℕ) : ℚ)
          (ratchetKey trivPrims "phrase" "space" ((1 : ℕ) : ℚ) none).st).fastCalls
        = 3 - 1 :=
  ⟨⟨by decide, by decide⟩,
    (claim2_cache_reuse trivPrims "phrase" "space" 1 3 (by decide) (by decide)).1,
    (claim2_cache_reuse trivPrims "phrase" "space" 1 3 (by decide) (by decide)).2.2.1,
    (claim2_cache_reuse trivPrims "phrase" "space" 1 3 (by decide) (by decide)).2.2.2⟩

/-- C6: the cache holds keys for at most one `(keyphrase, salt)` pair: a
request with a differing pair replaces the cache with a fresh empty one
before computing, and under the coherence invariant every `ratchetKey`
result is the chain key of the *requested* pair — never a key computed
under a different pair.  Afterwards the cache is primed with the requested
pair and coherent again. -/
theorem claim6_cache_isolation (P : Prims) (K S : String) (count : ℚ)
    (st0 : Option RatchetCache) (h : StInv P st0) (hc : 0 < count) :
    (∀ c, st0 = some c → ¬(c.key = K ∧ c.salt = S) →
        initalizeRatchetCache K S st0 = ⟨K, S, []⟩) ∧
      (ratchetKey P K S count st0).out =
        .ok (chainKey P K S (max 1 (Int.toNat ⌊count⌋))) ∧
      (∀ c', (ratchetKey P K S count st0).st = some c' →
        c'.key = K ∧ c'.salt = S) ∧
      StInv P (ratchetKey P K S count st0).st := by
  obtain ⟨M0, hm0⟩ := StInv_init P K S st0 h
  obtain ⟨hout, ⟨m', hst', hmap'⟩, -, -⟩ :=
    ratchetKey_spec P K S M0 st0 hm0 count hc
  refine ⟨?_, hout, ?_, ratchetKey_StInv P K S count st0 h⟩
  · intro c hsome hne
    subst hsome
    simp [initalizeRatchetCache, hne]
  · intro c' hc'
    rw [hst'] at hc'
    obtain rfl := Option.some.inj hc'
    exact ⟨rfl, rfl⟩

theorem claim6_witness :
    StInv trivPrims (some ⟨"oldphrase", "oldspace", []⟩) ∧ (0 : ℚ) < 1 ∧
      initalizeRatchetCache "phrase" "space"
          (some ⟨"oldphrase", "oldspace", []⟩) = ⟨"phrase", "space", []⟩ ∧
      (ratchetKey trivPrims "phrase" "space" 1
          (some ⟨"oldphrase", "oldspace", []⟩)).out =
        .ok (chainKey trivPrims "phrase" "space" (max 1 (Int.toNat ⌊(1 : ℚ)⌋))) :=
  ⟨⟨0, fun q => (chainGet_zero trivPrims "oldphrase" "oldspace" q).symm⟩,
    by norm_num,
    (claim6_cache_isolation trivPrims "phrase" "space" 1
        (some ⟨"oldphrase", "oldspace", []⟩)
        ⟨0, fun q => (chainGet_zero trivPrims "oldphrase" "oldspace" q).symm⟩
        (by norm_num)).1 ⟨"oldphrase", "oldspace", []⟩ rfl (by decide),
    (claim6_cache_isolation trivPrims "phrase" "space" 1
        (some ⟨"oldphrase", "oldspace", []⟩)
        ⟨0, fun q => (chainGet_zero trivPrims "oldphrase" "oldspace" q).symm⟩
        (by norm_num)).2.1⟩

/-- C7: for `index ≤ 0`, both `encryptMetadata` and `decryptMetadata` fail
with `InvalidRatchetCount` ("Ratchet count must be larger than 0"), leave
the cache untouched and perform no Argon2 pass at all. -/
theorem claim7_invalid_ratchet_count (P : Prims) (A : Aead)
    (stringifyB : JsValue → Bytes) (parseB : Bytes → Option JsValue)
    (iv : Bytes) (K S : String) (count : ℚ) (m : JsValue) (blob : Bytes)
    (st : Option RatchetCache) (hc : count ≤ 0) :
    SymmetricEncryption.encryptMetadata P A stringifyB iv K S count m st =
        ⟨.error .invalidRatchetCount, st, 0, 0⟩ ∧
      SymmetricEncryption.decryptMetadata P A parseB K S count blob st =
        ⟨.error .invalidRatchetCount, st, 0, 0⟩ := by
  have hr : ratchetKey P K S count st = ⟨.error .invalidRatchetCount, st, 0, 0⟩ := by
    rw [ratchetKey, if_pos hc]
  constructor
  · simp [SymmetricEncryption.encryptMetadata, hr]
  · simp [SymmetricEncryption.decryptMetadata, hr]

theorem claim7_witness :
    (0 : ℚ) ≤ 0 ∧
      SymmetricEncryption.encryptMetadata trivPrims idAead (fun _ => [])
          [] "phrase" "space" 0 .vNull none =
        ⟨.error .invalidRatchetCount, none, 0, 0⟩ :=
  ⟨le_refl 0,
    (claim7_invalid_ratchet_count trivPrims idAead (fun _ => [])
      (fun _ => none) [] "phrase" "space" 0 .vNull [] none (le_refl 0)).1⟩

/-- C8: key-pair derivation is deterministic: `createKeyPairFromKeyPhrase`
is a pure function of `(keyphrase, salt)` equal to
`(strongHash(K, S), edPub(strongHash(K, S)))` — its private key is exactly
the chain key `k₁` — and `ratchet(K, S, 1)` returns the same value
`k₁` from any coherent cache state, so any two calls agree. -/
theorem claim8_deterministic_keypair (P : Prims) (K S : String) :
    Signature.createKeyPairFromKeyPhrase P K S =
        .ok (chainKey P K S 1, P.edPub (chainKey P K S 1)) ∧
      ∀ st1 st2, StInv P st1 → StInv P st2 →
        (ratchetKey P K S 1 st1).out = (ratchetKey P K S 1 st2).out ∧
        (ratchetKey P K S 1 st1).out = .ok (chainKey P K S 1) := by
  refine ⟨rfl, fun st1 st2 h1 h2 => ?_⟩
  have e1 := ratchetKey_value P K S 1 st1 h1 (by norm_num)
  have e2 := ratchetKey_value P K S 1 st2 h2 (by norm_num)
  have hone : max 1 (Int.toNat ⌊(1 : ℚ)⌋) = 1 := by
    rw [show ((1 : ℚ)) = ((1 : ℕ) : ℚ) from by norm_num, Int.floor_natCast]
    omega
  rw [hone] at e1 e2
  exact ⟨e1.trans e2.symm, e1⟩

theorem claim8_witness :
    Signature.createKeyPairFromKeyPhrase trivPrims "phrase" "space" =
        .ok (chainKey trivPrims "phrase" "space" 1,
          trivPrims.edPub (chainKey trivPrims "phrase" "space" 1)) ∧
      StInv trivPrims none ∧
      StInv trivPrims (some ⟨"other", "space", []⟩) ∧
      (ratchetKey trivPrims "phrase" "space" 1 none).out =
        (ratchetKey trivPrims "phrase" "space" 1
          (some ⟨"other", "space", []⟩)).out :=
  ⟨(claim8_deterministic_keypair trivPrims "phrase" "space").1,
    StInv_none trivPrims,
    ⟨0, fun q => (chainGet_zero trivPrims "other" "space" q).symm⟩,
    ((claim8_deterministic_keypair trivPrims "phrase" "space").2 none
      (some ⟨"other", "space", []⟩) (StInv_none trivPrims)
      ⟨0, fun q => (chainGet_zero trivPrims "other" "space" q).symm⟩).1⟩

/-- C9 (implicit): a positive non-integer index `x` is accepted without
`InvalidRatchetCount` by both metadata operations; the derived key is the
chain key at the integer index `max 1 ⌊x⌋` (the same key a fresh ratchet at
that integer index yields), and the first chain key is cached under the
integer map key `1`. -/
theorem claim9_nonint_index (P : Prims) (A : Aead)
    (stringifyB : JsValue → Bytes) (parseB : Bytes → Option JsValue)
    (iv : Bytes) (K S : String) (x : ℚ) (m : JsValue) (blob : Bytes)
    (st0 : Option RatchetCache) (h : StInv P st0) (hx : 0 < x)
    (hden : x.den ≠ 1) :
    (ratchetKey P K S x st0).out =
        .ok (chainKey P K S (max 1 (Int.toNat ⌊x⌋))) ∧
      (ratchetKey P K S x st0).out =
        (ratchetKey P K S ((max 1 (Int.toNat ⌊x⌋) : ℕ) : ℚ) none).out ∧
      (SymmetricEncryption.encryptMetadata P A stringifyB iv K S x m st0).out ≠
        .error .invalidRatchetCount ∧
      (SymmetricEncryption.decryptMetadata P A parseB K S x blob st0).out ≠
        .error .invalidRatchetCount ∧
      ∀ c', (ratchetKey P K S x st0).st = some c' →
        mapGet c'.hashes 1 = some (chainKey P K S 1) := by
  obtain ⟨M0, hm0⟩ := StInv_init P K S st0 h
  obtain ⟨hout, ⟨m', hst', hmap'⟩, -, -⟩ := ratchetKey_spec P K S M0 st0 hm0 x hx
  have hNpos : (0 : ℚ) < ((max 1 (Int.toNat ⌊x⌋) : ℕ) : ℚ) := by
    have : 0 < max 1 (Int.toNat ⌊x⌋) := by omega
    exact_mod_cast this
  refine ⟨hout, ?_, ?_, ?_, ?_⟩
  · rw [hout, ratchetKey_value P K S _ none (StInv_none P) hNpos]
    rw [show max 1 (Int.toNat ⌊((max 1 (Int.toNat ⌊x⌋) : ℕ) : ℚ)⌋) =
        max 1 (Int.toNat ⌊x⌋) from by rw [Int.floor_natCast]; omega]
  · exact encryptMetadata_after_ratchet P A stringifyB iv K S x m st0 _ hout
  · exact decryptMetadata_after_ratchet P A parseB K S x blob st0 _ hout
  · intro c' hc'
    rw [hst'] at hc'
    obtain rfl := Option.some.inj hc'
    have h1 := hmap' 1
    rw [chainGet_one, if_pos (by omega)] at h1
    exact h1

theorem claim9_witness :
    (StInv trivPrims none ∧ (0 : ℚ) < ratNonInt ∧ ratNonInt.den ≠ 1) ∧
      (ratchetKey trivPrims "phrase" "space" ratNonInt none).out =
        .ok (chainKey trivPrims "phrase" "space" (max 1 (Int.toNat ⌊ratNonInt⌋))) :=
  ⟨⟨StInv_none trivPrims, by decide, by decide⟩,
    (claim9_nonint_index trivPrims idAead (fun _ => []) (fun _ => none) []
      "phrase" "space" ratNonInt .vNull [] none (StInv_none trivPrims)
      (by decide) (by decide)).1⟩

/-- C3: metadata round-trip.  For a valid metadata object (a JSON-safe
record whose `contentKeyBase64` field is a base64 string decoding to a
32-byte CEK) and any index `i ≥ 1`, decrypting the encrypted blob with the
same `(keyphrase, salt, index)` returns the metadata unchanged; and
`decryptFile` inverts `encryptFile` under the metadata-embedded CEK.
`hjson` is the runtime JSON codec law `JSON.parse(JSON.stringify(m)) = m`
at the metadata in question. -/
theorem claim3_roundtrip (P : Prims) (A : Aead)
    (stringifyB : JsValue → Bytes) (parseB : Bytes → Option JsValue)
    (iv iv2 : Bytes) (K S : String) (i : ℚ)
    (fields : List (String × JsValue)) (ck : String) (cek file : Bytes)
    (st0 : Option RatchetCache)
    (hst : StInv P st0) (hi : 0 < i)
    (hiv : iv.length = 16) (hiv2 : iv2.length = 16)
    (hck : lookupField fields "contentKeyBase64" = some (.vStr ck))
    (hcek : base64Decode ck = some cek) (hlen : cek.length = 32)
    (hjson : parseB (stringifyB (.vObj fields)) = some (.vObj fields)) :
    (SymmetricEncryption.encryptMetadata P A stringifyB iv K S i
        (.vObj fields) st0).out =
      .ok (SymmetricEncryption.encrypt A iv
        (chainKey P K S (max 1 (Int.toNat ⌊i⌋))) (stringifyB (.vObj fields))) ∧
    (SymmetricEncryption.decryptMetadata P A parseB K S i
        (SymmetricEncryption.encrypt A iv
          (chainKey P K S (max 1 (Int.toNat ⌊i⌋))) (stringifyB (.vObj fields)))
        (SymmetricEncryption.encryptMetadata P A stringifyB iv K S i
          (.vObj fields) st0).st).out = .ok (.vObj fields) ∧
    SymmetricEncryption.encryptFile A iv2 (.vObj fields) file =
      .ok (SymmetricEncryption.encrypt A iv2 cek file) ∧
    SymmetricEncryption.decryptFile A (.vObj fields)
      (SymmetricEncryption.encrypt A iv2 cek file) = .ok file := by
  have hckne : ck ≠ "" := by
    intro hemp
    subst hemp
    rw [show base64Decode "" = some [] from rfl] at hcek
    obtain rfl := (Option.some.inj hcek).symm
    simp at hlen
  obtain ⟨M0, hm0⟩ := StInv_init P K S st0 hst
  obtain ⟨hout1, ⟨m1, hst1, hmap1⟩, -, -⟩ := ratchetKey_spec P K S M0 st0 hm0 i hi
  have henc : SymmetricEncryption.encryptMetadata P A stringifyB iv K S i
      (.vObj fields) st0 =
      ⟨.ok (SymmetricEncryption.encrypt A iv
          (chainKey P K S (max 1 (Int.toNat ⌊i⌋))) (stringifyB (.vObj fields))),
        (ratchetKey P K S i st0).st, (ratchetKey P K S i st0).strongCalls,
        (ratchetKey P K S i st0).fastCalls⟩ := by
    simp [SymmetricEncryption.encryptMetadata, hout1, JsValue.truthy,
      JsValue.isObject]
  have hm2 : ∀ q, mapGet (initalizeRatchetCache K S
      (ratchetKey P K S i st0).st).hashes q =
      chainGet P K S (max M0 (max 1 (Int.toNat ⌊i⌋))) q := by
    intro q
    rw [hst1, show initalizeRatchetCache K S (some (⟨K, S, m1⟩ : RatchetCache)) =
      ⟨K, S, m1⟩ from by simp [initalizeRatchetCache]]
    exact hmap1 q
  obtain ⟨hout2, -, -, -⟩ :=
    ratchetKey_spec P K S (max M0 (max 1 (Int.toNat ⌊i⌋)))
      (ratchetKey P K S i st0).st hm2 i hi
  refine ⟨by rw [henc], ?_, ?_, ?_⟩
  · simp only [henc]
    simp only [SymmetricEncryption.decryptMetadata, hout2,
      decrypt_encrypt A iv (chainKey P K S (max 1 (Int.toNat ⌊i⌋)))
        (stringifyB (.vObj fields)) hiv, hjson]
    simp [JsValue.truthy, JsValue.isObject, getProp, hck, hckne]
  · simp [SymmetricEncryption.encryptFile, getProp, hck, hcek]
  · simp [SymmetricEncryption.decryptFile, getProp, hck, hcek,
      decrypt_encrypt A iv2 cek file hiv2]

theorem claim3_witness :
    ((0 : ℚ) < 1 ∧ (List.replicate 16 0 : Bytes).length = 16 ∧
      lookupField sampleFields "contentKeyBase64" = some (.vStr cek44) ∧
      base64Decode cek44 = some (List.replicate 32 0) ∧
      (List.replicate 32 0 : Bytes).length = 32) ∧
      (SymmetricEncryption.decryptMetadata trivPrims idAead
        (fun _ => some (.vObj sampleFields)) "phrase" "space" 1
        (SymmetricEncryption.encrypt idAead (List.replicate 16 0)
          (chainKey trivPrims "phrase" "space" (max 1 (Int.toNat ⌊(1 : ℚ)⌋)))
          ((fun _ => ([9] : Bytes)) (JsValue.vObj sampleFields)))
        (SymmetricEncryption.encryptMetadata trivPrims idAead
          (fun _ => ([9] : Bytes)) (List.replicate 16 0) "phrase" "space" 1
          (.vObj sampleFields) none).st).out = .ok (.vObj sampleFields) :=
  ⟨⟨by norm_num, by simp, rfl, rfl, by simp⟩,
    (claim3_roundtrip trivPrims idAead (fun _ => [9])
      (fun _ => some (.vObj sampleFields)) (List.replicate 16 0)
      (List.replicate 16 0) "phrase" "space" 1 sampleFields cek44
      (List.replicate 32 0) [] none (StInv_none trivPrims) (by norm_num)
      (by simp) (by simp) rfl rfl (by simp) rfl).2.1⟩

/-- C4 (corrected): the shape check `if (metadata && typeof metadata !==
"object")` only fires for *truthy* non-objects, which then fail with
`InvalidMetadataShape`; a falsy argument — object or not — passes the check
and its serialization is encrypted. -/
theorem claim4_shape_check (P : Prims) (A : Aead)
    (stringifyB : JsValue → Bytes) (iv : Bytes) (K S : String) (i : ℚ)
    (m : JsValue) (st0 : Option RatchetCache)
    (hst : StInv P st0) (hi : 0 < i) :
    (m.truthy = true → m.isObject = false →
      (SymmetricEncryption.encryptMetadata P A stringifyB iv K S i m st0).out =
        .error .invalidMetadataShape) ∧
    (m.truthy = false →
      (SymmetricEncryption.encryptMetadata P A stringifyB iv K S i m st0).out =
        .ok (SymmetricEncryption.encrypt A iv
          (chainKey P K S (max 1 (Int.toNat ⌊i⌋))) (stringifyB m))) := by
  have hr := ratchetKey_value P K S i st0 hst hi
  constructor
  · intro ht ho
    simp [SymmetricEncryption.encryptMetadata, hr, ht, ho]
  · intro hf
    simp [SymmetricEncryption.encryptMetadata, hr, hf]

/-- C4 counterexample: `0` is not an object, yet `encryptMetadata` does not
fail with `InvalidMetadataShape` — being falsy, `0` slips past the
`metadata && typeof metadata !== "object"` guard and is encrypted. -/
theorem claim4_counterexample :
    (JsValue.vNum 0).isObject = false ∧
      (SymmetricEncryption.encryptMetadata trivPrims idAead (fun _ => [7])
        (List.replicate 16 0) "phrase" "space" 1 (.vNum 0) none).out =
      .ok (List.replicate 16 0 ++ [7]) :=
  ⟨rfl, rfl⟩

theorem claim4_witness :
    (StInv trivPrims none ∧ (0 : ℚ) < 1 ∧
      (JsValue.vStr "nope").truthy = true ∧
      (JsValue.vStr "nope").isObject = false) ∧
      (SymmetricEncryption.encryptMetadata trivPrims idAead (fun _ => [7])
        (List.replicate 16 0) "phrase" "space" 1 (.vStr "nope") none).out =
      .error .invalidMetadataShape :=
  ⟨⟨StInv_none trivPrims, by norm_num, rfl, rfl⟩,
    (claim4_shape_check trivPrims idAead (fun _ => [7]) (List.replicate 16 0)
      "phrase" "space" 1 (.vStr "nope") none (StInv_none trivPrims)
      (by norm_num)).1 rfl rfl⟩

/-- C5 (corrected): after decrypting and parsing, `decryptMetadata` only
checks that `metadata.contentKeyBase64` is present and truthy: absence (or
a falsy value) fails with `MissingContentKey` ("content key not found in
metadata"), but there is no 32-byte length validation — any truthy value,
well-formed or not, is returned as-is. -/
theorem claim5_content_key_check (P : Prims) (A : Aead)
    (parseB : Bytes → Option JsValue) (K S : String) (i : ℚ)
    (blob pt : Bytes) (fields : List (String × JsValue))
    (st0 : Option RatchetCache) (hst : StInv P st0) (hi : 0 < i)
    (hde : SymmetricEncryption.decrypt A
      (chainKey P K S (max 1 (Int.toNat ⌊i⌋))) blob = .ok pt)
    (hpb : parseB pt = some (.vObj fields)) :
    (lookupField fields "contentKeyBase64" = none →
      (SymmetricEncryption.decryptMetadata P A parseB K S i blob st0).out =
        .error .missingContentKey) ∧
    (∀ v, lookupField fields "contentKeyBase64" = some v → v.truthy = false →
      (SymmetricEncryption.decryptMetadata P A parseB K S i blob st0).out =
        .error .missingContentKey) ∧
    (∀ v, lookupField fields "contentKeyBase64" = some v → v.truthy = true →
      (SymmetricEncryption.decryptMetadata P A parseB K S i blob st0).out =
        .ok (.vObj fields)) := by
  have hr := ratchetKey_value P K S i st0 hst hi
  refine ⟨?_, ?_, ?_⟩
  · intro hnone
    simp [SymmetricEncryption.decryptMetadata, hr, hde, hpb, JsValue.truthy,
      JsValue.isObject, getProp, hnone]
  · intro v hv hvf
    simp [SymmetricEncryption.decryptMetadata, hr, hde, hpb, getProp, hv, hvf]
  · intro v hv hvt
    simp [SymmetricEncryption.decryptMetadata, hr, hde, hpb, getProp, hv, hvt]

/-- C5 counterexample: a metadata record whose `contentKeyBase64` is
`"AAAA"` — valid base64 of only 3 bytes, not 32 — is *returned* by
`decryptMetadata`, not rejected: malformed content keys are silently
accepted. -/
theorem claim5_counterexample :
    base64Decode "AAAA" = some [0, 0, 0] ∧ ([0, 0, 0] : Bytes).length ≠ 32 ∧
      (SymmetricEncryption.decryptMetadata trivPrims idAead
        (fun _ => some (.vObj [("contentKeyBase64", JsValue.vStr "AAAA")]))
        "phrase" "space" 1 (List.replicate 16 0) none).out =
      .ok (.vObj [("contentKeyBase64", JsValue.vStr "AAAA")]) :=
  ⟨rfl, by decide, rfl⟩

theorem claim5_witness :
    (StInv trivPrims none ∧ (0 : ℚ) < 1 ∧
      SymmetricEncryption.decrypt idAead
        (chainKey trivPrims "phrase" "space" (max 1 (Int.toNat ⌊(1 : ℚ)⌋)))
        (List.replicate 16 0) = .ok [] ∧
      (fun _ => some (JsValue.vObj [])) ([] : Bytes) = some (JsValue.vObj []) ∧
      lookupField ([] : List (String × JsValue)) "contentKeyBase64" = none) ∧
      (SymmetricEncryption.decryptMetadata trivPrims idAead
        (fun _ => some (.vObj [])) "phrase" "space" 1
        (List.replicate 16 0) none).out = .error .missingContentKey :=
  ⟨⟨StInv_none trivPrims, by norm_num, rfl, rfl, rfl⟩,
    (claim5_content_key_check trivPrims idAead (fun _ => some (.vObj []))
      "phrase" "space" 1 (List.replicate 16 0) [] [] none
      (StInv_none trivPrims) (by norm_num) rfl rfl).1 rfl⟩

/-- C10 (implicit): a *present-but-falsy* content key — the field exists
but its value is any falsy JS value (the empty string, `0`, `false`,
`null`, `undefined`) — still fails with the "content key not found in
metadata" error, because the source tests `!metadata.contentKeyBase64`
(truthiness), not presence. -/
theorem claim10_falsy_content_key (P : Prims) (A : Aead)
    (parseB : Bytes → Option JsValue) (K S : String) (i : ℚ)
    (blob pt : Bytes) (fields : List (String × JsValue))
    (st0 : Option RatchetCache) (hst : StInv P st0) (hi : 0 < i)
    (hde : SymmetricEncryption.decrypt A
      (chainKey P K S (max 1 (Int.toNat ⌊i⌋))) blob = .ok pt)
    (hpb : parseB pt = some (.vObj fields))
    (v : JsValue)
    (hck : lookupField fields "contentKeyBase64" = some v)
    (hfalsy : v.truthy = false) :
    (SymmetricEncryption.decryptMetadata P A parseB K S i blob st0).out =
      .error .missingContentKey := by
  have hr := ratchetKey_value P K S i st0 hst hi
  simp [SymmetricEncryption.decryptMetadata, hr, hde, hpb, getProp, hck,
    hfalsy]

theorem claim10_witness :
    (StInv trivPrims none ∧ (0 : ℚ) < 1 ∧
      lookupField [("contentKeyBase64", JsValue.vStr "")] "contentKeyBase64" =
        some (.vStr "") ∧ (JsValue.vStr "").truthy = false) ∧
      (SymmetricEncryption.decryptMetadata trivPrims idAead
        (fun _ => some (.vObj [("contentKeyBase64", JsValue.vStr "")]))
        "phrase" "space" 1 (List.replicate 16 0) none).out =
      .error .missingContentKey :=
  ⟨⟨StInv_none trivPrims, by norm_num, rfl, rfl⟩,
    claim10_falsy_content_key trivPrims idAead
      (fun _ => some (.vObj [("contentKeyBase64", JsValue.vStr "")]))
      "phrase" "space" 1 (List.replicate 16 0) []
      [("contentKeyBase64", JsValue.vStr "")] none (StInv_none trivPrims)
      (by norm_num) rfl rfl (.vStr "") rfl rfl⟩
